import Mathlib

/-
Verification of the repository structure summarizer in `api/tools/codemap.py`.

The filesystem is modelled abstractly: an `FSEntry` is what one position of
the directory tree looks like to the scanner.  A directory carries
`Option (List FSEntry)`: `some es` means `os.scandir` succeeds and yields
`es`; `none` means enumeration raises (permission denied or any other
error).  A file carries `Option Nat`: `some k` means `entry.stat().st_size`
returns `k`; `none` means the stat call raises.

Paths are lists of path components (the result of splitting a POSIX path on
the separator).  `os.path.basename` is the last component;
`os.path.relpath p root`, for the calls the program makes (where `root` is
a component-prefix of `p`), drops the prefix and joins the remainder with
a slash, giving "." when nothing remains.
-/

/-- A filesystem entry as observed by the scanner (see the module comment). -/
inductive FSEntry : Type where
  | file (name : String) (statSize : Option Nat)
  | dir (name : String) (listing : Option (List FSEntry))

/-- Accessor for `entry.name` of a scandir entry. -/
def FSEntry.name : FSEntry → String
  | .file n _ => n
  | .dir n _ => n

/-- Accessor for `entry.is_dir()` of a scandir entry. -/
def FSEntry.isDir : FSEntry → Bool
  | .file _ _ => false
  | .dir _ _ => true

/-- Result of `entry.stat().st_size` with the bare `except: size = 0`
applied: the size read for a file entry, defaulting to `0` when the stat
call fails.  (Only used on file entries.) -/
def FSEntry.sizeD : FSEntry → Nat
  | .file _ st => st.getD 0
  | .dir _ _ => 0

/-- The `FileNode` dataclass of `codemap.py`:
`name`, `path`, `type` (the string "file" or "directory"), `size`,
`children`. -/
inductive FileNode : Type where
  | mk (name : String) (path : String) (type : String) (size : Nat)
      (children : List FileNode)

/-- Field `name` of a `FileNode`. -/
def FileNode.name : FileNode → String
  | .mk n _ _ _ _ => n

/-- Field `path` of a `FileNode`. -/
def FileNode.path : FileNode → String
  | .mk _ p _ _ _ => p

/-- Field `type` of a `FileNode`. -/
def FileNode.type : FileNode → String
  | .mk _ _ t _ _ => t

/-- Field `size` of a `FileNode`. -/
def FileNode.size : FileNode → Nat
  | .mk _ _ _ s _ => s

/-- Field `children` of a `FileNode`. -/
def FileNode.children : FileNode → List FileNode
  | .mk _ _ _ _ cs => cs

/-- Model of `os.path.basename` on a component list: the last component,
`""` when there is none. -/
def basename (p : List String) : String := p.getLast?.getD ""

/-- Model of `os.path.relpath p root` for the calls made by
`build_directory_tree`, where `root` is a component-prefix of `p`: drop
the prefix and join the rest with a slash; the empty remainder renders as
".". -/
def relpath (p root : List String) : String :=
  let rest := p.drop root.length
  if rest.isEmpty then "." else String.intercalate ("/") rest

/-- The `name` assigned to the node for `path`: `os.path.basename(path)`,
and when `path == root_path` the Python `or` fallback replaces an empty
basename by the fixed label "root". -/
def scanName (path root : List String) : String :=
  if path = root then
    (if basename path = "" then "root" else basename path)
  else basename path

/-- Model of Python `s.startswith(p)`: `p` is a character-wise prefix of
`s`. -/
def pyStartsWith (s p : String) : Bool := p.data.isPrefixOf s.data

/-- Model of Python `s.lower()` (character-wise lowercasing). -/
def pyLower (s : String) : String := ⟨s.data.map Char.toLower⟩

/-- Model of Python string comparison `s <= t` on character lists:
lexicographic by code point, with a proper prefix comparing below any
extension. -/
def codeLE : List Char → List Char → Bool
  | [], _ => true
  | _ :: _, [] => false
  | a :: as, b :: bs =>
    a.toNat < b.toNat || (a.toNat == b.toNat && codeLE as bs)

/-- Model of Python string comparison `s <= t` lifted to `String`. -/
def pyStrLE (s t : String) : Bool := codeLE s.data t.data

/-- Lexicographic comparison of sort keys `(not is_dir, name.lower())`
as produced by Python tuple comparison (False sorts before True, strings
compare lexicographically). -/
def keyLE : Bool × String → Bool × String → Bool
  | (d1, s1), (d2, s2) => (!d1 && d2) || (d1 == d2 && pyStrLE s1 s2)

/-- The sort key `lambda e: (not e.is_dir(), e.name.lower())`. -/
def sortKey (e : FSEntry) : Bool × String := (!e.isDir, pyLower e.name)

/-- The entry ordering induced by the sort key. -/
def entryLE (a b : FSEntry) : Bool := keyLE (sortKey a) (sortKey b)

/-- Model of `sorted(os.scandir(path), key=...)` with the key above. -/
def sortEntries (es : List FSEntry) : List FSEntry := es.mergeSort entryLE

/-- The fixed exclusion set of `build_directory_tree`. -/
def excludedNames : List String :=
  ["__pycache__", "node_modules", "dist", "build", "venv", "env"]

/-- Test that a name passes the two `continue` checks of the scanning
loop: it does not start with the hidden marker and is not in the
exclusion set. -/
def goodNameStr (s : String) : Bool :=
  !(pyStartsWith s (".")) && !(excludedNames.contains s)

/-- Test that an entry survives the two `continue` filters. -/
def admissible (e : FSEntry) : Bool := goodNameStr e.name

/-- The entries the loop body of `build_directory_tree` actually processes
at a given position: on a successful enumeration, the sorted listing with
the two filters applied; when `os.scandir` raises (a failing directory, or
a file, where scandir raises NotADirectoryError) the `except` handlers
leave the children empty. -/
def entryChildren : FSEntry → List FSEntry
  | .dir _ (some es) => (sortEntries es).filter admissible
  | _ => []

/-- Embedding of `build_directory_tree(path, root_path)` of `codemap.py`.
The Python default `root_path=None` is modelled by the `Option` argument
(`none` at the public entry point); the body first replaces `None` by
`path`.  The node for the current path is always a directory node with
`size = 0`; its children come from the sorted, filtered listing: directory
entries recurse with the extended path and the same scan root, file
entries become leaves carrying the defaulted stat size. -/
def build_directory_tree (fs : FSEntry) (path : List String)
    (root_path : Option (List String)) : FileNode :=
  let root := root_path.getD path
  FileNode.mk (scanName path root) (relpath path root) "directory" 0
    ((entryChildren fs).attach.map (fun x =>
      if x.1.isDir then
        build_directory_tree x.1 (path ++ [x.1.name]) (some root)
      else
        FileNode.mk x.1.name (relpath (path ++ [x.1.name]) root) "file"
          x.1.sizeD []))
termination_by sizeOf fs
decreasing_by
  have h := x.2
  cases fs with
  | file n st => simp [entryChildren] at h
  | dir n l =>
    cases l with
    | none => simp [entryChildren] at h
    | some es =>
      simp only [entryChildren, List.mem_filter, sortEntries,
        List.mem_mergeSort] at h
      have h1 := List.sizeOf_lt_of_mem h.1
      simp only [FSEntry.dir.sizeOf_spec, Option.some.sizeOf_spec]
      omega

/-- Embedding of `generate_codemap_data(repo_path)`: the public call
`build_directory_tree(repo_path)` with the defaulted root. -/
def generate_codemap_data (fs : FSEntry) (repo_path : List String) : FileNode :=
  build_directory_tree fs repo_path none

/-- Model of Python string repetition `s * n`. -/
def strTimes (s : String) (n : Nat) : String :=
  match n with
  | 0 => ""
  | k + 1 => s ++ strTimes s k

mutual

/-- The closure `_add_nodes(parent_node, level)` of
`generate_mermaid_codemap`: the text it appends to `content`.  It returns
immediately when `level > 3`; otherwise it walks the children in order,
emitting a line (four spaces per level of indentation, then the name) for
each directory child followed by the recursive contribution of that child,
and nothing for file children. -/
def addNodes : FileNode → Nat → String
  | .mk _ _ _ _ cs, level =>
    if level > 3 then "" else addNodesList cs level

/-- The `for child in parent_node.children` loop of `_add_nodes`. -/
def addNodesList : List FileNode → Nat → String
  | [], _ => ""
  | c :: cs, level =>
    (if c.type == "directory" then
       strTimes ("    ") (level + 1) ++ c.name ++ "\n" ++ addNodes c (level + 1)
     else "") ++ addNodesList cs level

end

/-- Embedding of `generate_mermaid_codemap(node, indent)` of `codemap.py`:
the header line, the root declaration labelled with the name of the root
node, then the accumulated output of `_add_nodes(node, 0)`.  The `indent`
parameter (Python default 0) is accepted and never read. -/
def generate_mermaid_codemap (node : FileNode) (indent : Int) : String :=
  "mindmap\n" ++ ("  root((" ++ node.name ++ "))\n") ++ addNodes node 0

mutual

/-- Truncation of a tree: `truncate k t` is `t` with every node deeper
than `k` levels below `t` removed (`truncate 0` keeps only the node
itself). -/
def truncate : Nat → FileNode → FileNode
  | 0, .mk n p ty s _ => .mk n p ty s []
  | k + 1, .mk n p ty s cs => .mk n p ty s (truncateList k cs)

def truncateList : Nat → List FileNode → List FileNode
  | _, [] => []
  | k, c :: cs => truncate k c :: truncateList k cs

end

mutual

/-- Removal of file nodes: `stripFiles t` is `t` with every node whose
`type` field differs from "directory" removed from all children lists. -/
def stripFiles : FileNode → FileNode
  | .mk n p ty s cs => .mk n p ty s (stripFilesList cs)

def stripFilesList : List FileNode → List FileNode
  | [] => []
  | c :: cs =>
    if c.type == "directory" then stripFiles c :: stripFilesList cs
    else stripFilesList cs

end

mutual

/-- Predicate: both name filters hold at this node and at every node
below it. -/
def allNamesGood : FileNode → Bool
  | .mk n _ _ _ cs => goodNameStr n && allNamesGoodList cs

def allNamesGoodList : List FileNode → Bool
  | [] => true
  | c :: cs => allNamesGood c && allNamesGoodList cs

end

/-- The path invariant, stated structurally against the source filesystem:
the `path` field of the node renders the component list `pfx` (the chain
of entry names from the scan root to this node, "." when empty), the node
has one child per processed entry, and each child node satisfies the same
property for the extended chain. -/
def pathsAgree (fs : FSEntry) (t : FileNode) (pfx : List String) : Bool :=
  (t.path == (if pfx.isEmpty then "." else String.intercalate ("/") pfx)) &&
  ((entryChildren fs).length == t.children.length) &&
  (((entryChildren fs).zip t.children).attach.all (fun x =>
    pathsAgree x.1.1 x.1.2 (pfx ++ [x.1.1.name])))
termination_by sizeOf fs
decreasing_by
  have key : ∀ e : FSEntry, e ∈ entryChildren fs → sizeOf e < sizeOf fs := by
    intro e h
    cases fs with
    | file n st => simp [entryChildren] at h
    | dir n l =>
      cases l with
      | none => simp [entryChildren] at h
      | some es =>
        simp only [entryChildren, List.mem_filter, sortEntries,
          List.mem_mergeSort] at h
        have h1 := List.sizeOf_lt_of_mem h.1
        simp only [FSEntry.dir.sizeOf_spec, Option.some.sizeOf_spec]
        omega
  exact key _ (List.of_mem_zip x.2).1

/-- The name invariant, stated structurally against the source filesystem:
the node has one child per processed entry and the `name` field of each
child node is the `entry.name` of its entry, recursively. -/
def namesAgree (fs : FSEntry) (t : FileNode) : Bool :=
  ((entryChildren fs).length == t.children.length) &&
  (((entryChildren fs).zip t.children).attach.all (fun x =>
    (x.1.2.name == x.1.1.name) && namesAgree x.1.1 x.1.2))
termination_by sizeOf fs
decreasing_by
  have key : ∀ e : FSEntry, e ∈ entryChildren fs → sizeOf e < sizeOf fs := by
    intro e h
    cases fs with
    | file n st => simp [entryChildren] at h
    | dir n l =>
      cases l with
      | none => simp [entryChildren] at h
      | some es =>
        simp only [entryChildren, List.mem_filter, sortEntries,
          List.mem_mergeSort] at h
        have h1 := List.sizeOf_lt_of_mem h.1
        simp only [FSEntry.dir.sizeOf_spec, Option.some.sizeOf_spec]
        omega
  exact key _ (List.of_mem_zip x.2).1

/-- The ordering the spec claims between two adjacent children: either a
directory-kind node before a file-kind node, or two nodes of the same kind
whose case-folded names are in Python string order. -/
def pairLEnode (a b : FileNode) : Bool :=
  ((a.type == "directory") && (b.type == "file")) ||
  (((a.type == "directory") == (b.type == "directory")) &&
    pyStrLE (pyLower a.name) (pyLower b.name))

/-- Test that `a` is `pairLEnode`-below every element of `bs`. -/
def allLEnode : FileNode → List FileNode → Bool
  | _, [] => true
  | a, b :: bs => pairLEnode a b && allLEnode a bs

/-- Test that every child is `pairLEnode`-below every later child. -/
def pairwiseNode : List FileNode → Bool
  | [] => true
  | a :: as => allLEnode a as && pairwiseNode as

mutual

/-- Predicate: the children ordering invariant holds at this node and at
every node below it. -/
def treeOrdered : FileNode → Bool
  | .mk _ _ _ _ cs => pairwiseNode cs && treeOrderedList cs

def treeOrderedList : List FileNode → Bool
  | [] => true
  | c :: cs => treeOrdered c && treeOrderedList cs

end

/-- A directory chain four levels deep below the root, with pairwise
distinct names. -/
def deepChain4 : FileNode :=
  .mk ("r") (".") ("directory") 0
    [.mk ("d1") ("d1") ("directory") 0
      [.mk ("d2") ("d1/d2") ("directory") 0
        [.mk ("d3") ("d1/d2/d3") ("directory") 0
          [.mk ("d4") ("d1/d2/d3/d4") ("directory") 0 []]]]]

theorem sizeOf_lt_of_mem_entryChildren {e fs : FSEntry}
    (h : e ∈ entryChildren fs) : sizeOf e < sizeOf fs := by
  cases fs with
  | file n st => simp [entryChildren] at h
  | dir n l =>
    cases l with
    | none => simp [entryChildren] at h
    | some es =>
      simp only [entryChildren, List.mem_filter, sortEntries,
        List.mem_mergeSort] at h
      have h1 := List.sizeOf_lt_of_mem h.1
      simp only [FSEntry.dir.sizeOf_spec, Option.some.sizeOf_spec]
      omega

/-- The defining equation of `build_directory_tree` with the termination
bookkeeping removed. -/
theorem build_directory_tree_def (fs : FSEntry) (path : List String)
    (root_path : Option (List String)) :
    build_directory_tree fs path root_path =
      FileNode.mk (scanName path (root_path.getD path))
        (relpath path (root_path.getD path)) "directory" 0
        ((entryChildren fs).map (fun e =>
          if e.isDir then
            build_directory_tree e (path ++ [e.name])
              (some (root_path.getD path))
          else
            FileNode.mk e.name
              (relpath (path ++ [e.name]) (root_path.getD path)) "file"
              e.sizeD [])) := by
  rw [build_directory_tree]
  exact congrArg
    (fun cs => FileNode.mk (scanName path (root_path.getD path))
      (relpath path (root_path.getD path)) "directory" 0 cs)
    (List.attach_map_coe (entryChildren fs) (fun e =>
      if e.isDir then
        build_directory_tree e (path ++ [e.name]) (some (root_path.getD path))
      else
        FileNode.mk e.name (relpath (path ++ [e.name]) (root_path.getD path))
          "file" e.sizeD []))

theorem build_name (fs : FSEntry) (path : List String)
    (root_path : Option (List String)) :
    (build_directory_tree fs path root_path).name =
      scanName path (root_path.getD path) := by
  rw [build_directory_tree_def]; rfl

theorem build_path (fs : FSEntry) (path : List String)
    (root_path : Option (List String)) :
    (build_directory_tree fs path root_path).path =
      relpath path (root_path.getD path) := by
  rw [build_directory_tree_def]; rfl

theorem build_type (fs : FSEntry) (path : List String)
    (root_path : Option (List String)) :
    (build_directory_tree fs path root_path).type = "directory" := by
  rw [build_directory_tree_def]; rfl

theorem build_children (fs : FSEntry) (path : List String)
    (root_path : Option (List String)) :
    (build_directory_tree fs path root_path).children =
      (entryChildren fs).map (fun e =>
        if e.isDir then
          build_directory_tree e (path ++ [e.name]) (some (root_path.getD path))
        else
          FileNode.mk e.name
            (relpath (path ++ [e.name]) (root_path.getD path)) "file"
            e.sizeD []) := by
  rw [build_directory_tree_def]; rfl

/-- Strong induction over the view the scanner has of the filesystem: to
prove a property of every entry it is enough to prove it assuming it for
all processed children. -/
theorem fsStrongInd {P : FSEntry → Prop}
    (h : ∀ fs, (∀ e ∈ entryChildren fs, P e) → P fs) : ∀ fs, P fs := by
  have key : ∀ n (fs : FSEntry), sizeOf fs < n → P fs := by
    intro n
    induction n with
    | zero => intro fs h0; omega
    | succ n ih =>
      intro fs hlt
      apply h
      intro e he
      have := sizeOf_lt_of_mem_entryChildren he
      exact ih e (by omega)
  intro fs
  exact key (sizeOf fs + 1) fs (Nat.lt_succ_self _)

theorem sizeOf_lt_of_mem_children {c t : FileNode}
    (h : c ∈ t.children) : sizeOf c < sizeOf t := by
  cases t with
  | mk n p ty s cs =>
    have := List.sizeOf_lt_of_mem h
    simp only [FileNode.mk.sizeOf_spec]
    simp only [FileNode.children] at this
    omega

/-- Strong induction over built trees. -/
theorem nodeStrongInd {P : FileNode → Prop}
    (h : ∀ t, (∀ c ∈ t.children, P c) → P t) : ∀ t, P t := by
  have key : ∀ n (t : FileNode), sizeOf t < n → P t := by
    intro n
    induction n with
    | zero => intro t h0; omega
    | succ n ih =>
      intro t hlt
      apply h
      intro c hc
      have := sizeOf_lt_of_mem_children hc
      exact ih c (by omega)
  intro t
  exact key (sizeOf t + 1) t (Nat.lt_succ_self _)

theorem truncate_name (k : Nat) (t : FileNode) : (truncate k t).name = t.name := by
  cases k <;> cases t <;> rfl

theorem truncate_type (k : Nat) (t : FileNode) : (truncate k t).type = t.type := by
  cases k <;> cases t <;> rfl

theorem addNodesList_truncateList (k level : Nat) (cs : List FileNode)
    (IH : ∀ c ∈ cs, ∀ k' level', 4 ≤ level' + k' →
      addNodes (truncate k' c) level' = addNodes c level')
    (h : 4 ≤ level + (k + 1)) :
    addNodesList (truncateList k cs) level = addNodesList cs level := by
  induction cs with
  | nil => rfl
  | cons c cs ih =>
    rw [truncateList, addNodesList, addNodesList]
    rw [truncate_type, truncate_name]
    rw [IH c (by simp) k (level + 1) (by omega)]
    rw [ih (fun c hc => IH c (by simp [hc]))]

theorem addNodes_truncate (t : FileNode) :
    ∀ k level, 4 ≤ level + k →
      addNodes (truncate k t) level = addNodes t level := by
  induction t using nodeStrongInd with
  | h t IH =>
    intro k level h
    cases t with
    | mk n p ty s cs =>
      cases k with
      | zero =>
        have hlv : level > 3 := by omega
        rw [truncate, addNodes, addNodes, if_pos hlv, if_pos hlv]
      | succ k =>
        rw [truncate, addNodes, addNodes]
        by_cases hlv : level > 3
        · rw [if_pos hlv, if_pos hlv]
        · rw [if_neg hlv, if_neg hlv]
          exact addNodesList_truncateList k level cs
            (fun c hc => IH c (by simpa [FileNode.children] using hc)) h

theorem stripFiles_name (t : FileNode) : (stripFiles t).name = t.name := by
  cases t
  rfl

theorem stripFiles_type (t : FileNode) : (stripFiles t).type = t.type := by
  cases t
  rfl

theorem addNodesList_stripFilesList (level : Nat) (cs : List FileNode)
    (IH : ∀ c ∈ cs, ∀ level',
      addNodes (stripFiles c) level' = addNodes c level') :
    addNodesList (stripFilesList cs) level = addNodesList cs level := by
  induction cs with
  | nil => rfl
  | cons c cs ih =>
    rw [stripFilesList]
    by_cases hc : c.type == "directory"
    · rw [if_pos hc, addNodesList, addNodesList]
      rw [stripFiles_type, stripFiles_name]
      rw [IH c (by simp) (level + 1)]
      rw [ih (fun c hc => IH c (by simp [hc]))]
    · rw [if_neg hc, addNodesList]
      rw [if_neg hc]
      rw [ih (fun c hc => IH c (by simp [hc]))]
      simp

theorem addNodes_stripFiles (t : FileNode) :
    ∀ level, addNodes (stripFiles t) level = addNodes t level := by
  induction t using nodeStrongInd with
  | h t IH =>
    intro level
    cases t with
    | mk n p ty s cs =>
      rw [stripFiles, addNodes, addNodes]
      by_cases hlv : level > 3
      · rw [if_pos hlv, if_pos hlv]
      · rw [if_neg hlv, if_neg hlv]
        exact addNodesList_stripFilesList level cs
          (fun c hc => IH c (by simpa [FileNode.children] using hc))

/-- C1 (counterexample): the directory depth bound of the renderer is not
three.  In the four-deep chain `deepChain4`, the directory at depth four
below the root IS rendered: its label line, sixteen spaces of indentation
followed by its name, appears in the output, and the diagram differs from
the diagram of the same tree with everything deeper than three levels
discarded. -/
theorem generate_renders_depth_four :
    generate_mermaid_codemap deepChain4 0 =
      "mindmap\n  root((r))\n    d1\n        d2\n            d3\n                d4\n" ∧
    generate_mermaid_codemap deepChain4 0 ≠
      generate_mermaid_codemap (truncate 3 deepChain4) 0 :=
  ⟨rfl, by decide⟩

/-- C1 (amended): the depth bound of the renderer is four levels beyond
the root, not three: the diagram is unchanged when every node deeper than
four levels below the root is omitted, so directory children at depth five
or more are never rendered. -/
theorem generate_depth_bound_four (t : FileNode) (i : Int) :
    generate_mermaid_codemap t i = generate_mermaid_codemap (truncate 4 t) i := by
  unfold generate_mermaid_codemap
  rw [truncate_name, addNodes_truncate t 4 0 (by omega)]

/-- C6: the diagram renders no file-kind node: the output is unchanged
when every node whose `type` is not "directory" is removed from all
children lists, so only the root declaration and directory labels are ever
emitted. -/
theorem generate_omits_files (t : FileNode) (i : Int) :
    generate_mermaid_codemap t i = generate_mermaid_codemap (stripFiles t) i := by
  unfold generate_mermaid_codemap
  rw [stripFiles_name, addNodes_stripFiles]

/-- C7: `generate_mermaid_codemap` is total (a plain function in this
embedding, mirroring the pure Python code, so it terminates and returns a
single finite string on every input) and its output always starts with the
header line "mindmap" followed by the root declaration labelled with the
name of the root node. -/
theorem generate_total_with_header (t : FileNode) (i : Int) :
    ∃ rest, generate_mermaid_codemap t i =
      "mindmap\n" ++ ("  root((" ++ t.name ++ "))\n") ++ rest :=
  ⟨addNodes t 0, rfl⟩

/-- C10: the output of `generate_mermaid_codemap` does not depend on the
`indent` argument, which the body never reads. -/
theorem generate_ignores_indent (t : FileNode) (i j : Int) :
    generate_mermaid_codemap t i = generate_mermaid_codemap t j := rfl

theorem basename_concat (p : List String) (x : String) : basename (p ++ [x]) = x := by
  simp [basename, List.getLast?_concat]

theorem admissible_of_mem_entryChildren {e fs : FSEntry}
    (h : e ∈ entryChildren fs) : admissible e = true := by
  cases fs with
  | file n st => simp [entryChildren] at h
  | dir n l =>
    cases l with
    | none => simp [entryChildren] at h
    | some es => exact (List.mem_filter.mp (by simpa [entryChildren] using h)).2

theorem goodNameStr_scanName {x : String} (hx : goodNameStr x = true)
    (path root : List String) :
    goodNameStr (scanName (path ++ [x]) root) = true := by
  unfold scanName
  rw [basename_concat]
  by_cases h : path ++ [x] = root
  · rw [if_pos h]
    by_cases hx0 : x = ""
    · rw [if_pos hx0]; decide
    · rw [if_neg hx0]; exact hx
  · rw [if_neg h]; exact hx

theorem allNamesGood_eq (t : FileNode) :
    allNamesGood t = (goodNameStr t.name && allNamesGoodList t.children) := by
  cases t
  rfl

theorem allNamesGoodList_forall (cs : List FileNode) :
    allNamesGoodList cs = true ↔ ∀ c ∈ cs, allNamesGood c = true := by
  induction cs with
  | nil => simp [allNamesGoodList]
  | cons c cs ih => simp [allNamesGoodList, ih]

theorem build_descendant_names_good (fs : FSEntry) :
    ∀ path root_path,
      allNamesGoodList (build_directory_tree fs path root_path).children = true := by
  induction fs using fsStrongInd with
  | h fs IH =>
    intro path root_path
    rw [build_children, allNamesGoodList_forall]
    intro c hc
    obtain ⟨e, he, rfl⟩ := List.mem_map.mp hc
    have hadm := admissible_of_mem_entryChildren he
    by_cases hd : e.isDir
    · rw [if_pos hd, allNamesGood_eq, build_name]
      simp only [Option.getD_some]
      rw [IH e he (path ++ [e.name]) (some (root_path.getD path))]
      rw [goodNameStr_scanName hadm path (root_path.getD path)]
      rfl
    · rw [if_neg hd]
      simp only [allNamesGood, allNamesGoodList]
      simpa [admissible] using hadm

/-- C2 (counterexample): the filters never apply to the root.  Scanning a
path whose basename is ".git" yields a tree whose root node is itself
named ".git", which begins with the hidden marker, so the exclusion
invariant fails at the root. -/
theorem root_name_escapes_filter :
    allNamesGood
      (generate_codemap_data (FSEntry.dir (".git") (some [])) [".git"]) = false := by
  unfold generate_codemap_data
  rw [build_directory_tree_def]
  simp only [entryChildren, sortEntries, List.mergeSort_nil, List.filter_nil,
    List.map_nil]
  decide

/-- C2 (amended): in every tree built by the public entry point, every
node other than the root has a name that does not begin with "." and is
not in the fixed exclusion set {__pycache__, node_modules, dist, build,
venv, env}; the root name is the basename of the scanned path and is not
subject to the filters. -/
theorem build_nonroot_names_filtered (fs : FSEntry) (path : List String) :
    allNamesGoodList (generate_codemap_data fs path).children = true :=
  build_descendant_names_good fs path none

theorem entryChildren_dir_none (n : String) (path : List String)
    (root_path : Option (List String)) :
    (build_directory_tree (FSEntry.dir n none) path root_path).children = [] := by
  rw [build_children]
  rfl

/-- C3: enumeration failure is absorbed, never propagated.  In this
embedding `build_directory_tree` is a plain total function (mirroring the
`except` handlers that swallow `PermissionError` and every other
`Exception`), so it returns a node on every input; this theorem states the
scenario from the spec: scanning a directory that contains one
access-denied subdirectory and one accessible subdirectory yields exactly
the two child subtrees (in the sorted order), where the denied
subdirectory is a directory node with no children and the accessible one
is the complete recursively built subtree. -/
theorem build_tolerates_denied_sibling (nm dn an : String)
    (aes : List FSEntry) (path : List String)
    (root_path : Option (List String))
    (hdn : admissible (FSEntry.dir dn none) = true)
    (han : admissible (FSEntry.dir an (some aes)) = true) :
    (build_directory_tree
        (FSEntry.dir nm (some [FSEntry.dir dn none, FSEntry.dir an (some aes)]))
        path root_path).children.Perm
      [build_directory_tree (FSEntry.dir dn none) (path ++ [dn])
         (some (root_path.getD path)),
       build_directory_tree (FSEntry.dir an (some aes)) (path ++ [an])
         (some (root_path.getD path))] ∧
    (build_directory_tree (FSEntry.dir dn none) (path ++ [dn])
        (some (root_path.getD path))).children = [] := by
  constructor
  · rw [build_children]
    have h1 :
        List.Perm (sortEntries [FSEntry.dir dn none, FSEntry.dir an (some aes)])
          [FSEntry.dir dn none, FSEntry.dir an (some aes)] :=
      List.mergeSort_perm _ _
    have h2 := h1.filter admissible
    have h3 :
        List.filter admissible [FSEntry.dir dn none, FSEntry.dir an (some aes)] =
          [FSEntry.dir dn none, FSEntry.dir an (some aes)] := by
      simp [List.filter, hdn, han]
    rw [h3] at h2
    have h4 := h2.map (fun e =>
      if e.isDir then
        build_directory_tree e (path ++ [e.name]) (some (root_path.getD path))
      else
        FileNode.mk e.name (relpath (path ++ [e.name]) (root_path.getD path))
          "file" e.sizeD [])
    refine (List.Perm.trans (by exact h4) ?_)
    simp only [List.map_cons, List.map_nil, FSEntry.isDir, FSEntry.name,
      if_true, List.Perm.refl]
  · exact entryChildren_dir_none dn (path ++ [dn]) (some (root_path.getD path))

/-- Witness for C3: the scenario at a concrete input. -/
theorem build_tolerates_denied_sibling_witness :
    (build_directory_tree
        (FSEntry.dir ("repo")
          (some [FSEntry.dir ("locked") none,
                 FSEntry.dir ("src") (some [FSEntry.file ("a.py") (some 120)])]))
        ["repo"] none).children.Perm
      [build_directory_tree (FSEntry.dir ("locked") none) ["repo", "locked"]
         (some ["repo"]),
       build_directory_tree
         (FSEntry.dir ("src") (some [FSEntry.file ("a.py") (some 120)]))
         ["repo", "src"] (some ["repo"])] ∧
    (build_directory_tree (FSEntry.dir ("locked") none) ["repo", "locked"]
        (some ["repo"])).children = [] :=
  build_tolerates_denied_sibling ("repo") ("locked") ("src")
    [FSEntry.file ("a.py") (some 120)] ["repo"] none (by decide) (by decide)

/-- C8: for an admissible file entry in a successfully enumerated
directory, the built tree contains the corresponding file leaf whose
`size` is the stat result defaulted to `0`: it is `0` exactly when the
stat call fails (`st = none`) and the read byte length when it succeeds
(`st = some k`). -/
theorem build_file_size (nm fname : String) (st : Option Nat)
    (es : List FSEntry) (path : List String)
    (root_path : Option (List String))
    (hmem : FSEntry.file fname st ∈ es)
    (hadm : admissible (FSEntry.file fname st) = true) :
    FileNode.mk fname (relpath (path ++ [fname]) (root_path.getD path)) "file"
        (st.getD 0) [] ∈
      (build_directory_tree (FSEntry.dir nm (some es)) path root_path).children := by
  rw [build_children]
  apply List.mem_map.mpr
  refine ⟨FSEntry.file fname st, ?_, ?_⟩
  · show FSEntry.file fname st ∈ (sortEntries es).filter admissible
    refine List.mem_filter.mpr ⟨?_, hadm⟩
    show FSEntry.file fname st ∈ es.mergeSort entryLE
    exact List.mem_mergeSort.mpr hmem
  · simp [FSEntry.isDir, FSEntry.name, FSEntry.sizeD]

/-- Witness for C8: a failing stat gives size 0; a successful stat of 120
bytes gives size 120. -/
theorem build_file_size_witness :
    FileNode.mk ("data.bin") (relpath ["repo", "data.bin"] ["repo"]) ("file") 0 [] ∈
      (build_directory_tree
        (FSEntry.dir ("repo") (some [FSEntry.file ("data.bin") none]))
        ["repo"] none).children ∧
    FileNode.mk ("a.py") (relpath ["repo", "a.py"] ["repo"]) ("file") 120 [] ∈
      (build_directory_tree
        (FSEntry.dir ("repo") (some [FSEntry.file ("a.py") (some 120)]))
        ["repo"] none).children :=
  ⟨build_file_size ("repo") ("data.bin") none [FSEntry.file ("data.bin") none]
      ["repo"] none (by simp) (by decide),
   build_file_size ("repo") ("a.py") (some 120) [FSEntry.file ("a.py") (some 120)]
      ["repo"] none (by simp) (by decide)⟩

theorem pathsAgree_iff (fs : FSEntry) (t : FileNode) (pfx : List String) :
    pathsAgree fs t pfx = true ↔
      t.path = (if pfx.isEmpty then "." else String.intercalate ("/") pfx) ∧
      (entryChildren fs).length = t.children.length ∧
      ∀ p ∈ (entryChildren fs).zip t.children,
        pathsAgree p.1 p.2 (pfx ++ [p.1.name]) = true := by
  rw [pathsAgree]
  simp only [Bool.and_eq_true, beq_iff_eq, List.all_eq_true, List.mem_attach,
    true_implies, Subtype.forall, and_assoc]

theorem zip_map_self {α β : Type _} (l : List α) (f : α → β) :
    ∀ p ∈ l.zip (l.map f), p.2 = f p.1 ∧ p.1 ∈ l := by
  induction l with
  | nil => simp
  | cons a as ih =>
    intro p hp
    simp only [List.map_cons, List.zip_cons_cons, List.mem_cons] at hp
    rcases hp with h | h
    · simp [h]
    · have := ih p h
      exact ⟨this.1, by simp [this.2]⟩

theorem pathsAgree_build (fs : FSEntry) :
    ∀ path root : List String, root.length ≤ path.length →
      pathsAgree fs (build_directory_tree fs path (some root))
        (path.drop root.length) = true := by
  induction fs using fsStrongInd with
  | h fs IH =>
    intro path root hlen
    rw [pathsAgree_iff]
    refine ⟨?_, ?_, ?_⟩
    · rw [build_path]
      rfl
    · rw [build_children]
      simp
    · intro p hp
      rw [build_children] at hp
      simp only [Option.getD_some] at hp
      obtain ⟨h2, h1⟩ := zip_map_self _ _ p hp
      obtain ⟨e, c⟩ := p
      simp only at h2 h1 ⊢
      rw [h2]
      by_cases hd : e.isDir
      · rw [if_pos hd]
        have hrec := IH e h1 (path ++ [e.name]) root
          (by simp only [List.length_append, List.length_cons]; omega)
        rw [List.drop_append_of_le_length hlen] at hrec
        exact hrec
      · rw [if_neg hd]
        rw [pathsAgree_iff]
        refine ⟨?_, ?_, ?_⟩
        · simp only [FileNode.path, relpath]
          rw [List.drop_append_of_le_length hlen]
        · cases e with
          | file n st => rfl
          | dir n l => simp [FSEntry.isDir] at hd
        · cases e with
          | file n st => simp [entryChildren]
          | dir n l => simp [FSEntry.isDir] at hd

/-- The public entry point passes `root_path = None`, which the body
immediately replaces by `path` itself. -/
theorem build_root_default (fs : FSEntry) (path : List String) :
    build_directory_tree fs path none = build_directory_tree fs path (some path) := by
  rw [build_directory_tree_def, build_directory_tree_def]
  rfl

/-- C5: in every tree returned by the public entry point, the `path` field
of each node is the relative path from the scan root to the source entry
of the node (the slash-joined chain of entry names leading to it), and the
`path` field of the root node is the self path ".". -/
theorem build_paths_relative (fs : FSEntry) (path : List String) :
    pathsAgree fs (generate_codemap_data fs path) [] = true := by
  have h := pathsAgree_build fs path path (Nat.le_refl _)
  rw [List.drop_length] at h
  rw [generate_codemap_data, build_root_default]
  exact h

theorem namesAgree_iff (fs : FSEntry) (t : FileNode) :
    namesAgree fs t = true ↔
      (entryChildren fs).length = t.children.length ∧
      ∀ p ∈ (entryChildren fs).zip t.children,
        p.2.name = p.1.name ∧ namesAgree p.1 p.2 = true := by
  rw [namesAgree]
  simp only [Bool.and_eq_true, beq_iff_eq, List.all_eq_true, List.mem_attach,
    true_implies, Subtype.forall]

theorem concat_ne_of_length_le {path root : List String} (x : String)
    (hlen : root.length ≤ path.length) : path ++ [x] ≠ root := by
  intro h
  have := congrArg List.length h
  simp only [List.length_append, List.length_cons, List.length_nil] at this
  omega

theorem scanName_concat {path root : List String} (x : String)
    (hlen : root.length ≤ path.length) :
    scanName (path ++ [x]) root = x := by
  rw [scanName, if_neg (concat_ne_of_length_le x hlen), basename_concat]

theorem namesAgree_build (fs : FSEntry) :
    ∀ path root : List String, root.length ≤ path.length →
      namesAgree fs (build_directory_tree fs path (some root)) = true := by
  induction fs using fsStrongInd with
  | h fs IH =>
    intro path root hlen
    rw [namesAgree_iff]
    constructor
    · rw [build_children]
      simp
    · intro p hp
      rw [build_children] at hp
      simp only [Option.getD_some] at hp
      obtain ⟨h2, h1⟩ := zip_map_self _ _ p hp
      obtain ⟨e, c⟩ := p
      simp only at h2 h1 ⊢
      rw [h2]
      by_cases hd : e.isDir
      · rw [if_pos hd]
        refine ⟨?_, IH e h1 (path ++ [e.name]) root
          (by simp only [List.length_append, List.length_cons]; omega)⟩
        rw [build_name]
        simp only [Option.getD_some]
        exact scanName_concat e.name hlen
      · rw [if_neg hd]
        cases e with
        | file n st =>
          refine ⟨rfl, ?_⟩
          rw [namesAgree_iff]
          exact ⟨rfl, by simp [entryChildren]⟩
        | dir n l => simp [FSEntry.isDir] at hd

/-- C9: in every tree returned by the public entry point, the name of the
root node is the basename of the scanned path, replaced by the fixed
fallback "root" when that basename is empty, and the name of every
non-root node is the `entry.name` of its directory entry. -/
theorem build_node_names (fs : FSEntry) (path : List String) :
    (generate_codemap_data fs path).name =
      (if basename path = "" then "root" else basename path) ∧
    namesAgree fs (generate_codemap_data fs path) = true := by
  constructor
  · rw [generate_codemap_data, build_name]
    simp [scanName]
  · rw [generate_codemap_data, build_root_default]
    exact namesAgree_build fs path path (Nat.le_refl _)

theorem codeLE_total : ∀ as bs : List Char, (codeLE as bs || codeLE bs as) = true := by
  intro as
  induction as with
  | nil => intro bs; simp [codeLE]
  | cons a as ih =>
    intro bs
    cases bs with
    | nil => simp [codeLE]
    | cons b bs =>
      simp only [codeLE, Bool.or_eq_true, Bool.and_eq_true, decide_eq_true_eq,
        beq_iff_eq]
      rcases Nat.lt_trichotomy a.toNat b.toNat with h | h | h
      · exact Or.inl (Or.inl h)
      · have := ih bs
        simp only [Bool.or_eq_true] at this
        rcases this with h2 | h2
        · exact Or.inl (Or.inr ⟨h, h2⟩)
        · exact Or.inr (Or.inr ⟨h.symm, h2⟩)
      · exact Or.inr (Or.inl h)

theorem codeLE_trans : ∀ as bs cs : List Char,
    codeLE as bs = true → codeLE bs cs = true → codeLE as cs = true := by
  intro as
  induction as with
  | nil => intro bs cs h1 h2; simp [codeLE]
  | cons a as ih =>
    intro bs cs h1 h2
    cases bs with
    | nil => simp [codeLE] at h1
    | cons b bs =>
      cases cs with
      | nil => simp [codeLE] at h2
      | cons c cs =>
        simp only [codeLE, Bool.or_eq_true, Bool.and_eq_true, decide_eq_true_eq,
          beq_iff_eq] at h1 h2 ⊢
        rcases h1 with h1 | ⟨h1e, h1r⟩
        · rcases h2 with h2 | ⟨h2e, h2r⟩
          · exact Or.inl (by omega)
          · exact Or.inl (by omega)
        · rcases h2 with h2 | ⟨h2e, h2r⟩
          · exact Or.inl (by omega)
          · exact Or.inr ⟨by omega, ih bs cs h1r h2r⟩

theorem entryLE_total : ∀ a b : FSEntry, (entryLE a b || entryLE b a) = true := by
  intro a b
  simp only [entryLE, keyLE, sortKey]
  cases ha : a.isDir <;> cases hb : b.isDir <;>
    simp only [Bool.not_true, Bool.not_false, Bool.and_true, Bool.and_false,
      Bool.true_and, Bool.false_and, Bool.or_false, Bool.false_or,
      Bool.true_or, Bool.or_true, beq_self_eq_true, Bool.true_and] <;>
    first
      | rfl
      | exact codeLE_total (pyLower a.name).data (pyLower b.name).data

theorem entryLE_trans : ∀ a b c : FSEntry,
    entryLE a b = true → entryLE b c = true → entryLE a c = true := by
  intro a b c h1 h2
  simp only [entryLE, keyLE, sortKey] at h1 h2 ⊢
  cases ha : a.isDir <;> cases hb : b.isDir <;> cases hc : c.isDir <;>
    simp_all only [Bool.not_true, Bool.not_false, Bool.and_true, Bool.and_false,
      Bool.true_and, Bool.false_and, Bool.or_false, Bool.false_or,
      Bool.true_or, Bool.or_true, beq_self_eq_true, Bool.true_and,
      Bool.and_self, beq_iff_eq] <;>
    first
      | rfl
      | exact codeLE_trans _ _ _ h1 h2
      | simp_all

theorem sortEntries_pairwise (es : List FSEntry) :
    (sortEntries es).Pairwise (fun a b => entryLE a b = true) := by
  have h : (es.mergeSort entryLE).Pairwise (fun a b => entryLE a b = true) :=
    List.sorted_mergeSort
      (fun a b c h1 h2 => entryLE_trans a b c h1 h2)
      (fun a b => entryLE_total a b) es
  exact h

theorem entryChildren_pairwise (fs : FSEntry) :
    (entryChildren fs).Pairwise (fun a b => entryLE a b = true) := by
  cases fs with
  | file n st => simp [entryChildren]
  | dir n l =>
    cases l with
    | none => simp [entryChildren]
    | some es => exact (sortEntries_pairwise es).filter admissible

theorem treeOrdered_eq (t : FileNode) :
    treeOrdered t = (pairwiseNode t.children && treeOrderedList t.children) := by
  cases t
  rfl

theorem treeOrderedList_forall (cs : List FileNode) :
    treeOrderedList cs = true ↔ ∀ c ∈ cs, treeOrdered c = true := by
  induction cs with
  | nil => simp [treeOrderedList]
  | cons c cs ih => simp [treeOrderedList, ih]

theorem allLEnode_iff (a : FileNode) (bs : List FileNode) :
    allLEnode a bs = true ↔ ∀ b ∈ bs, pairLEnode a b = true := by
  induction bs with
  | nil => simp [allLEnode]
  | cons b bs ih => simp [allLEnode, ih]

theorem pairwiseNode_iff (cs : List FileNode) :
    pairwiseNode cs = true ↔ cs.Pairwise (fun a b => pairLEnode a b = true) := by
  induction cs with
  | nil => simp [pairwiseNode]
  | cons a as ih => simp [pairwiseNode, List.pairwise_cons, allLEnode_iff, ih]

theorem pairLEnode_buildChild {e1 e2 : FSEntry} (path root : List String)
    (hlen : root.length ≤ path.length) (h : entryLE e1 e2 = true) :
    pairLEnode
      (if e1.isDir then build_directory_tree e1 (path ++ [e1.name]) (some root)
       else FileNode.mk e1.name (relpath (path ++ [e1.name]) root) "file"
         e1.sizeD [])
      (if e2.isDir then build_directory_tree e2 (path ++ [e2.name]) (some root)
       else FileNode.mk e2.name (relpath (path ++ [e2.name]) root) "file"
         e2.sizeD []) = true := by
  have hty1 : (if e1.isDir then build_directory_tree e1 (path ++ [e1.name]) (some root)
      else FileNode.mk e1.name (relpath (path ++ [e1.name]) root) "file" e1.sizeD []).type =
      (if e1.isDir then "directory" else "file") := by
    by_cases hd : e1.isDir
    · rw [if_pos hd, if_pos hd, build_type]
    · rw [if_neg hd, if_neg hd]; rfl
  have hty2 : (if e2.isDir then build_directory_tree e2 (path ++ [e2.name]) (some root)
      else FileNode.mk e2.name (relpath (path ++ [e2.name]) root) "file" e2.sizeD []).type =
      (if e2.isDir then "directory" else "file") := by
    by_cases hd : e2.isDir
    · rw [if_pos hd, if_pos hd, build_type]
    · rw [if_neg hd, if_neg hd]; rfl
  have hnm1 : (if e1.isDir then build_directory_tree e1 (path ++ [e1.name]) (some root)
      else FileNode.mk e1.name (relpath (path ++ [e1.name]) root) "file" e1.sizeD []).name =
      e1.name := by
    by_cases hd : e1.isDir
    · rw [if_pos hd, build_name]
      simp only [Option.getD_some]
      exact scanName_concat e1.name hlen
    · rw [if_neg hd]; rfl
  have hnm2 : (if e2.isDir then build_directory_tree e2 (path ++ [e2.name]) (some root)
      else FileNode.mk e2.name (relpath (path ++ [e2.name]) root) "file" e2.sizeD []).name =
      e2.name := by
    by_cases hd : e2.isDir
    · rw [if_pos hd, build_name]
      simp only [Option.getD_some]
      exact scanName_concat e2.name hlen
    · rw [if_neg hd]; rfl
  rw [pairLEnode, hty1, hty2, hnm1, hnm2]
  simp only [entryLE, keyLE, sortKey] at h
  have hdd : ("directory" == "directory") = true := rfl
  have hff : ("file" == "file") = true := rfl
  have hfd : ("file" == "directory") = false := rfl
  have hdf : ("directory" == "file") = false := rfl
  cases hd1 : e1.isDir <;> cases hd2 : e2.isDir <;> simp_all

theorem treeOrdered_build (fs : FSEntry) :
    ∀ path root : List String, root.length ≤ path.length →
      treeOrdered (build_directory_tree fs path (some root)) = true := by
  induction fs using fsStrongInd with
  | h fs IH =>
    intro path root hlen
    rw [treeOrdered_eq, Bool.and_eq_true]
    constructor
    · rw [build_children]
      simp only [Option.getD_some]
      rw [pairwiseNode_iff, List.pairwise_map]
      refine (entryChildren_pairwise fs).imp ?_
      intro e1 e2 h
      exact pairLEnode_buildChild path root hlen h
    · rw [build_children]
      simp only [Option.getD_some]
      rw [treeOrderedList_forall]
      intro c hc
      obtain ⟨e, he, rfl⟩ := List.mem_map.mp hc
      by_cases hd : e.isDir
      · rw [if_pos hd]
        exact IH e he (path ++ [e.name]) root
          (by simp only [List.length_append, List.length_cons]; omega)
      · rw [if_neg hd]
        rfl

/-- C4: in every tree returned by the public entry point, at every node
all directory-kind children precede all file-kind children and, within
each kind, children are ordered by their case-folded names (Python
`sorted` with key `(not is_dir, name.lower())`). -/
theorem build_children_ordered (fs : FSEntry) (path : List String) :
    treeOrdered (generate_codemap_data fs path) = true := by
  rw [generate_codemap_data, build_root_default]
  exact treeOrdered_build fs path path (Nat.le_refl _)
